import Mathlib

/-!
Shallow embedding of the MDS journal core (`mds/MDLog.cc`).

The segment table (`std::map<off_t, LogSegment*> segments`) is embedded as an
association list of `(offset, num_events)` pairs kept in ascending key order,
matching the ordered-map iteration the code relies on.  Event and segment
counters are embedded as `Int` (C `int`).  Byte offsets are `Nat`.

External collaborators are embedded as parameters:
- the cache's `try_to_expire` barrier query becomes `bar : Nat → Bool`
  (offset ↦ whether a barrier is pending for that segment);
- the 2-second trim deadline becomes `timeout : Nat → Bool`
  (iteration index ↦ whether the deadline has passed);
- an event's encoded size (`sizeof(type) + payload`) is carried on the event.

Fatal assertions in the source are embedded as `Option` failure (`none`).
-/

/-- One row of the segment table: `(offset, num_events)` for a `LogSegment`.
The offset is the segment's identity (`LogSegment::offset`); the count is
`LogSegment::num_events`.  A fresh segment starts with zero events, which is
Modelled from the spec: `LogSegment` itself is declared outside this file;
the spec describes a descriptor holding just its offset and event count. -/
abbrev SegTable := List (Nat × Int)

/-- The keys (segment offsets) of a segment table, in table order. -/
def keys (l : SegTable) : List Nat := l.map Prod.fst

/-- Sum of `num_events` over all segments of the table. -/
def sumCounts : SegTable → Int
  | [] => 0
  | (_, n) :: rest => n + sumCounts rest

/-- Offset of the oldest segment (`segments.begin()->first`). -/
def firstKey (l : SegTable) : Option Nat := (keys l).head?

/-- Offset of the newest segment (`segments.rbegin()->first`); on a sorted
table this is the greatest key, i.e. the current segment. -/
def lastKey : SegTable → Option Nat
  | [] => none
  | [(k, _)] => some k
  | _ :: b :: rest => lastKey (b :: rest)

/-- `segments.erase(k0)`: drop the entry with key `k0`. -/
def eraseKey (k0 : Nat) (l : SegTable) : SegTable := l.filter (fun p => p.1 ≠ k0)

/-- `segments[k0] = new LogSegment(k0)`: ordered insert, overwriting the
mapped value if the key is already present (std::map `operator[]` + assign). -/
def insertSeg (k0 : Nat) (v : Int) : SegTable → SegTable
  | [] => [(k0, v)]
  | (k, w) :: rest =>
    if k0 < k then (k0, v) :: (k, w) :: rest
    else if k0 = k then (k0, v) :: rest
    else (k, w) :: insertSeg k0 v rest

/-- `le->_segment->num_events++` where `le->_segment = segments.rbegin()->second`:
increment the event count of the newest (last) segment. -/
def bumpLast : SegTable → SegTable
  | [] => []
  | [(k, v)] => [(k, v + 1)]
  | a :: b :: rest => a :: bumpLast (b :: rest)

/-- Configuration read by MDLog: the master switch `g_conf.mds_log`, the
trimming concurrency cap `g_conf.mds_log_max_trimming`, the trim budgets
`max_events` / `max_segments` (−1 disables), and the stripe size
`log_inode.layout.period()`. -/
structure Config where
  mds_log : Bool
  mds_log_max_trimming : Nat
  max_events : Int
  max_segments : Int
  period : Nat
deriving DecidableEq

/-- The MDLog state together with the journaler offsets it manipulates.
`trimming` is the set of offsets of segments in `trimming_segments`;
`active` is `journaler->is_active()`. -/
structure MDLogState where
  segments : SegTable
  num_events : Int
  capped : Bool
  unflushed : Nat
  writing_subtree_map : Bool
  trimming : List Nat
  expire_pos : Nat
  read_pos : Nat
  write_pos : Nat
  active : Bool
deriving DecidableEq

/-- A log event as submit/replay see it: its type tag and its encoded size
(`sizeof(le->_type)` plus the payload bytes appended to the journaler). -/
structure LogEvent where
  etype : Nat
  esize : Nat
deriving DecidableEq

/-- Modelled from the spec: the distinguished subtree-map checkpoint tag
(`EVENT_SUBTREEMAP` is declared in `LogEvent.h`, outside this file); only
its distinctness from other tags matters. -/
def EVENT_SUBTREEMAP : Nat := 1

/-- `get_last_segment_offset()`: offset of the current (newest) segment.
Modelled from the spec: the accessor lives in `MDLog.h`; the spec says the
maximum key identifies the current segment.  Only called on a non-empty
table, so the default is irrelevant. -/
def lastSegOffset (s : MDLogState) : Nat := (lastKey s.segments).getD 0

namespace MDLog

/-- The unconditional front half of `MDLog::submit_entry` (lines 145-179):
bind the event to the current segment and count it, append its bytes, and
update `unflushed` according to whether a completion was supplied.  The
asserts `!segments.empty()` and `!capped` fail as `none`. -/
def submitInner (s : MDLogState) (e : LogEvent) (hasC : Bool) : Option MDLogState :=
  if s.segments = [] then none
  else if s.capped then none
  else some { s with
    segments := bumpLast s.segments,
    num_events := s.num_events + 1,
    write_pos := s.write_pos + e.esize,
    unflushed := if hasC then 0 else s.unflushed + 1 }

/-- The new-segment trigger evaluated at the end of `submit_entry`
(lines 184-187): non-empty table, no checkpoint in flight, a stripe
boundary crossed, and more than half a period past the last segment. -/
def segTrigger (cfg : Config) (s : MDLogState) : Prop :=
  s.segments ≠ [] ∧ s.writing_subtree_map = false ∧
    s.write_pos / cfg.period ≠ lastSegOffset s / cfg.period ∧
    cfg.period / 2 < s.write_pos - lastSegOffset s

instance (cfg : Config) (s : MDLogState) : Decidable (segTrigger cfg s) := by
  unfold segTrigger; exact inferInstance

/-- `submit_entry` body under `g_conf.mds_log`, fuelled to express the
mutual recursion with `start_new_segment`: when the trigger fires,
`start_new_segment` inserts a fresh segment at `write_pos`, sets
`writing_subtree_map`, and submits the subtree-map checkpoint (with a
completion, so `unflushed` resets); that nested submit re-evaluates the
trigger, which is then suppressed by `writing_subtree_map`.  Fuel 2 is
therefore always enough. -/
def submitCore (cfg : Config) (cpSize : Nat) : Nat → MDLogState → LogEvent → Bool → Option MDLogState
  | 0, _, _, _ => none
  | fuel + 1, s, e, hasC =>
    match submitInner s e hasC with
    | none => none
    | some s1 =>
      if segTrigger cfg s1 then
        if s1.writing_subtree_map then none
        else submitCore cfg cpSize fuel
          { s1 with segments := insertSeg s1.write_pos 0 s1.segments, writing_subtree_map := true }
          ⟨EVENT_SUBTREEMAP, cpSize⟩ true
      else some s1

/-- `MDLog::submit_entry(le, c)`.  Returns the new state and whether the
supplied completion was invoked immediately (which happens only on the
disabled-log short circuit, lines 136-143). -/
def submit_entry (cfg : Config) (cpSize : Nat) (s : MDLogState) (e : LogEvent) (hasC : Bool) :
    Option (MDLogState × Bool) :=
  if cfg.mds_log = false then some (s, hasC)
  else (submitCore cfg cpSize 2 s e hasC).map (fun s1 => (s1, false))

/-- `MDLog::start_new_segment`: assert no checkpoint is in flight, insert a
fresh segment at `write_pos`, raise `writing_subtree_map`, and submit the
checkpoint event through `submit_entry` (whose disabled-log branch would
leave the state otherwise untouched). -/
def start_new_segment (cfg : Config) (cpSize : Nat) (s : MDLogState) : Option MDLogState :=
  if s.writing_subtree_map then none
  else
    let s1 := { s with segments := insertSeg s.write_pos 0 s.segments, writing_subtree_map := true }
    if cfg.mds_log = false then some s1
    else submitCore cfg cpSize 2 s1 ⟨EVENT_SUBTREEMAP, cpSize⟩ true

/-- `MDLog::_logged_subtree_map`: the checkpoint's completion clears the
in-flight guard. -/
def logged_subtree_map (s : MDLogState) : MDLogState :=
  { s with writing_subtree_map := false }

/-- `MDLog::wait_for_sync(c)`: with the log enabled the completion is handed
to `journaler->flush(c)` (deferred, `false`); with the log disabled it is
finished immediately with success (`true`). -/
def wait_for_sync (cfg : Config) (s : MDLogState) : MDLogState × Bool :=
  if cfg.mds_log then (s, false) else (s, true)

/-- `MDLog::cap()`. -/
def cap (s : MDLogState) : MDLogState := { s with capped := true }

/-- `MDLog::_trimmed(ls)` (lines 325-350): skip the current segment unless
capped; otherwise subtract its events, assert it is still in the table
(`none` on failure), advance `expire_pos` to the segment's own offset when
it was the oldest, and erase it. -/
def trimmedSeg (s : MDLogState) (off : Nat) (ne : Int) : Option MDLogState :=
  if s.capped = false ∧ lastKey s.segments = some off then some s
  else if off ∈ keys s.segments then
    some { s with
      num_events := s.num_events - ne,
      expire_pos := if firstKey s.segments = some off then off else s.expire_pos,
      segments := eraseKey off s.segments }
  else none

/-- `MDLog::try_trim(ls)`: if the cache reports a pending barrier the
segment joins `trimming_segments` (its expiry deferred to the barrier's
completion); otherwise it is expired at once. -/
def try_trim (bar : Nat → Bool) (s : MDLogState) (off : Nat) (ne : Int) : Option MDLogState :=
  if bar off then some { s with trimming := off :: s.trimming }
  else trimmedSeg s off ne

/-- The `while` loop of `MDLog::trim` (lines 273-298), iterating the
segment table in ascending offset order.  `todo` is the iterator's
remaining key range (mutations only ever erase the entry just visited or
grow `trimming_segments`, so iterating the entry snapshot is faithful),
`i` counts iterations for the deadline check, and `left` is the running
`int left` event counter.  The source reads `ls->num_events` for the
decrement after `try_trim` may have freed `ls`; the value read is the count
the segment had, i.e. `ne`. -/
def trimGo (cfg : Config) (bar : Nat → Bool) (timeout : Nat → Bool) :
    SegTable → Nat → MDLogState → Int → Option MDLogState
  | [], _, s, _ => some s
  | (off, ne) :: rest, i, s, left =>
    if ¬ ((0 ≤ cfg.max_events ∧ cfg.max_events < left) ∨
          (0 ≤ cfg.max_segments ∧
            cfg.max_segments < (s.segments.length : Int) - (s.trimming.length : Int))) then
      some s
    else if timeout i then some s
    else if cfg.mds_log_max_trimming ≤ s.trimming.length then some s
    else
      match (if off ∈ s.trimming then some s else try_trim bar s off ne) with
      | none => none
      | some s1 => trimGo cfg bar timeout rest (i + 1) s1 (left - ne)

/-- `MDLog::trim()`. -/
def trim (cfg : Config) (bar : Nat → Bool) (timeout : Nat → Bool) (s : MDLogState) :
    Option MDLogState :=
  if s.segments = [] then some s
  else trimGo cfg bar timeout s.segments 0 s s.num_events

/-- `MDLog::flush()`: flush pending appends (journaler side effect only),
reset `unflushed`, then trim. -/
def flush (cfg : Config) (bar : Nat → Bool) (timeout : Nat → Bool) (s : MDLogState) :
    Option MDLogState :=
  trim cfg bar timeout { s with unflushed := 0 }

/-- `MDLog::create`: `journaler->reset()` plus `write_head`.  The reset is
Modelled from the spec: `Journaler::reset` lives outside this file; the spec
says create resets the streamer to empty (all offsets equal, here 0) and
leaves it usable.  Nothing in `MDLog::create` touches the segment table. -/
def create (s : MDLogState) : MDLogState :=
  { s with expire_pos := 0, read_pos := 0, write_pos := 0, active := true }

/-- `MDLog::append()`: position at the tail after recovery. -/
def append (s : MDLogState) : MDLogState :=
  { s with read_pos := s.write_pos, expire_pos := s.write_pos }

/-- `MDLog::replay(c)` (lines 354-383).  Result: the state, whether the
completion was invoked immediately with success, and whether the replay
worker thread was spawned.  The `is_active` assert and the
`num_events == 0` assert (line 379) fail as `none`. -/
def replay (s : MDLogState) (hasC : Bool) : Option (MDLogState × Bool × Bool) :=
  if s.active = false then none
  else
    let s1 := { s with read_pos := s.expire_pos }
    if s1.read_pos = s1.write_pos then some (s1, hasC, false)
    else if s1.num_events = 0 then some (s1, false, true)
    else none

/-- One iteration of the `_replay_thread` loop (lines 419-451) on a decoded
entry `(pos, etype)`: a subtree-map checkpoint inserts a fresh segment at
its own position; with the table still empty the event is consumed but not
applied; otherwise it is applied, the global counter is bumped, and
`new_expire_pos` is recorded at the first applied event if still zero. -/
def replayStep (acc : MDLogState × Nat) (entry : Nat × Nat) : MDLogState × Nat :=
  let s := acc.1
  let nep := acc.2
  let s1 :=
    if entry.2 = EVENT_SUBTREEMAP then
      { s with segments := insertSeg entry.1 0 s.segments }
    else s
  if s1.segments = [] then (s1, nep)
  else ({ s1 with num_events := s1.num_events + 1 }, if nep = 0 then entry.1 else nep)

/-- `MDLog::_replay_thread` (lines 398-474): consume the journal content
between `read_pos` and `write_pos` — given as the list of `(position, type)`
entries the readability loop yields in order — then rewind both `read_pos`
and `expire_pos` to `new_expire_pos`. -/
def replay_thread (s : MDLogState) (entries : List (Nat × Nat)) : MDLogState :=
  let r := entries.foldl replayStep (s, s.expire_pos)
  { r.1 with read_pos := r.2, expire_pos := r.2 }

end MDLog

/-! Concrete scenario inputs. -/

/-- No cache barriers pending for any segment (`try_to_expire` returns null). -/
def barNone : Nat → Bool := fun _ => false

/-- The 2-second trim deadline never elapses during the call. -/
def tNone : Nat → Bool := fun _ => false

/-- Configuration for the trim scenario: log enabled, `max_segments = 1`,
event budget disabled. -/
def cfgC1 : Config := ⟨true, 10, -1, 1, 1024⟩

/-- Three segments at offsets 0, 2048, 4096 (one event each), nothing
trimming, not capped, `expire_pos = 0`. -/
def stC1 : MDLogState := ⟨[(0, 1), (2048, 1), (4096, 1)], 3, false, 0, false, [], 0, 0, 6000, true⟩

/-- A fresh, empty, recovered log positioned at offset 0. -/
def st0 : MDLogState := ⟨[], 0, false, 0, false, [], 0, 0, 0, true⟩

/-- A fresh log about to replay a 400-byte journal from offset 0. -/
def stRe : MDLogState := ⟨[], 0, false, 0, false, [], 0, 0, 400, true⟩

/-- Journal content `[event_A, event_B, SUBTREEMAP@200, event_D]`: ordinary
events (tags 2, 3, 4) at positions 0, 100, 300 and the checkpoint at 200. -/
def entriesRe : List (Nat × Nat) := [(0, 2), (100, 3), (200, EVENT_SUBTREEMAP), (300, 4)]

/-- A state whose `read_pos` already equals `write_pos` at entry to `replay`
while `expire_pos` is behind. -/
def stC6 : MDLogState := ⟨[], 0, false, 0, false, [], 0, 10, 10, true⟩

/-- An empty journal (`expire_pos = write_pos`) with a stale `read_pos`. -/
def stC6w : MDLogState := ⟨[], 0, false, 0, false, [], 7, 3, 7, true⟩

/-- Configuration for the single-segment submit scenario: huge period so no
segment boundary is crossed, trim budgets disabled. -/
def cfgC7 : Config := ⟨true, 10, -1, -1, 4194304⟩

/-- An ordinary 30-byte event. -/
def evC7 : LogEvent := ⟨2, 30⟩

/-- Scenario (b) of the spec: start a new segment at offset 0 on a fresh
log, submit 5 events, flush (checkpoint encodes to 50 bytes). -/
def c7run : Option MDLogState :=
  (MDLog.start_new_segment cfgC7 50 st0).bind fun s1 =>
  (MDLog.submit_entry cfgC7 50 s1 evC7 false).bind fun p2 =>
  (MDLog.submit_entry cfgC7 50 p2.1 evC7 false).bind fun p3 =>
  (MDLog.submit_entry cfgC7 50 p3.1 evC7 false).bind fun p4 =>
  (MDLog.submit_entry cfgC7 50 p4.1 evC7 false).bind fun p5 =>
  (MDLog.submit_entry cfgC7 50 p5.1 evC7 false).bind fun p6 =>
  MDLog.flush cfgC7 barNone tNone p6.1

/-- A disabled-log configuration (`g_conf.mds_log = false`). -/
def cfgOff : Config := ⟨false, 10, -1, -1, 1024⟩

/-- A non-empty journal (`expire_pos ≠ write_pos`) whose events have already
been counted (`num_events = 1`). -/
def stC10 : MDLogState := ⟨[(0, 1)], 1, false, 0, false, [], 0, 0, 100, true⟩

/-- Well-formedness of the segment table: keys strictly increase in table
order (the std::map iteration-order invariant). -/
def WF (s : MDLogState) : Prop := List.Chain' (· < ·) (keys s.segments)

/-- The sum invariant `num_events == Σ segments[s].num_events`, lifted to the
result of a possibly assertion-failing operation. -/
def SumInvO : Option MDLogState → Prop
  | none => True
  | some s => s.num_events = sumCounts s.segments

/-- A single-segment state whose `write_pos` is about to cross a stripe
boundary: segment at offset 0, one counted event, position 1500. -/
def stC4 : MDLogState := ⟨[(0, 1)], 1, false, 0, false, [], 0, 0, 1500, true⟩

/-- Period 1024, trim budgets disabled. -/
def cfgC4 : Config := ⟨true, 10, -1, -1, 1024⟩

/-- A 100-byte ordinary event. -/
def evC4 : LogEvent := ⟨2, 100⟩

/-- A single uncapped segment (offset 5, two events). -/
def stC5 : MDLogState := ⟨[(5, 2)], 2, false, 0, false, [], 5, 5, 900, true⟩

/-- `max_segments = 0`, so trim always wants to remove a segment. -/
def cfgC5 : Config := ⟨true, 10, -1, 0, 1024⟩

/-- C1: code bug witness.  From segments {0, 2048, 4096} with no barriers and
`max_segments = 1`, `trim()` removes the segments at 0 and 2048, but
`_trimmed` sets `expire_pos` to the erased oldest segment's own offset, so
the run ends with `expire_pos = 2048`, not 4096: the minimum remaining key
(4096) does not equal `expire_pos`, contradicting the claimed invariant and
the claimed scenario outcome. -/
theorem trim_oldest_expire_pos_lags :
    (MDLog.trim cfgC1 barNone tNone stC1).map
        (fun s => (keys s.segments, s.expire_pos, s.num_events)) = some ([4096], 2048, 1) ∧
      ¬ (MDLog.trim cfgC1 barNone tNone stC1).map MDLogState.expire_pos = some 4096 := by
  decide

/-- C2 counterexample: replaying `[A, B, SUBTREEMAP@200, D]` from offset 0
leaves `num_events = 2`, not 1 — once the checkpoint creates its segment the
checkpoint event itself is applied and counted, then D as well.  Read and
expire positions do land on the checkpoint position 200. -/
theorem replay_checkpoint_counted :
    (MDLog.replay_thread stRe entriesRe).read_pos = 200 ∧
      (MDLog.replay_thread stRe entriesRe).expire_pos = 200 ∧
      (MDLog.replay_thread stRe entriesRe).segments = [(200, 0)] ∧
      (MDLog.replay_thread stRe entriesRe).num_events = 2 ∧
      ¬ (MDLog.replay_thread stRe entriesRe).num_events = 1 := by
  decide

/-- C3 counterexample: after the same replay completes, the global counter is
2 while the sum of per-segment counts is 0 — the replay thread increments
only `num_events`, never the segment's count — so the claimed invariant
fails at the replay-completion API boundary. -/
theorem replay_breaks_sum_invariant :
    (MDLog.replay_thread stRe entriesRe).num_events = 2 ∧
      sumCounts (MDLog.replay_thread stRe entriesRe).segments = 0 ∧
      ¬ (MDLog.replay_thread stRe entriesRe).num_events
          = sumCounts (MDLog.replay_thread stRe entriesRe).segments := by
  decide

/-- C6 counterexample: with `read_pos = write_pos = 10` at entry but
`expire_pos = 0`, `replay` does not invoke the callback immediately and does
spawn the worker: it first resets `read_pos := expire_pos` and only then
tests emptiness, so the test is `expire_pos = write_pos`, not the entry
value of `read_pos`. -/
theorem replay_entry_read_eq_write_still_spawns :
    stC6.read_pos = stC6.write_pos ∧
      (MDLog.replay stC6 true).map (fun r => (r.1.read_pos, r.2.1, r.2.2))
        = some (0, false, true) := by
  decide

/-- C7 counterexample: starting a segment at offset 0 and submitting 5
events then flushing leaves `num_events = 6`, not 5 — the subtree-map
checkpoint submitted by `start_new_segment` is itself bound to the segment
and counted. -/
theorem five_submits_counterexample :
    c7run.map (fun s => (s.num_events, s.segments, s.expire_pos)) = some (6, [(0, 6)], 0) ∧
      ¬ c7run.map MDLogState.num_events = some 5 := by
  decide

/-- C7 amended: the same scenario leaves `num_events = 6`, a single segment
at offset 0 with `num_events = 6`, and `expire_pos = 0`. -/
theorem five_submits_counts_checkpoint :
    c7run.map (fun s => (s.num_events, s.segments, s.expire_pos)) = some (6, [(0, 6)], 0) := by
  decide

/-- C9 counterexample: on a fresh empty log, `create` leaves the segment
table empty — nothing in `MDLog::create` inserts a segment. -/
theorem create_leaves_segments_empty : (MDLog.create st0).segments = [] := by
  decide

/-- C9 amended: `create` never touches the segment table at all (it only
resets the streamer offsets and rewrites the head), so after `create` on a
fresh log the table is empty until `start_new_segment` or replay populates
it. -/
theorem create_preserves_segments (s : MDLogState) : (MDLog.create s).segments = s.segments :=
  rfl

/-- Witness for the amended C9 statement at a concrete fresh log. -/
theorem create_preserves_segments_w : (MDLog.create stRe).segments = stRe.segments :=
  create_preserves_segments stRe

/-- C8: with the master log switch off, `submit_entry` and `wait_for_sync`
short-circuit — the supplied callback is finished immediately with success
and the log state is returned unchanged. -/
theorem disabled_log_short_circuit (cfg : Config) (cpSize : Nat) (s : MDLogState) (e : LogEvent)
    (hoff : cfg.mds_log = false) :
    MDLog.submit_entry cfg cpSize s e true = some (s, true) ∧
      MDLog.wait_for_sync cfg s = (s, true) := by
  constructor
  · simp [MDLog.submit_entry, hoff]
  · simp [MDLog.wait_for_sync, hoff]

/-- Witness for C8 at a concrete disabled configuration. -/
theorem disabled_log_short_circuit_w :
    cfgOff.mds_log = false ∧
      (MDLog.submit_entry cfgOff 50 st0 evC7 true = some (st0, true) ∧
        MDLog.wait_for_sync cfgOff st0 = (st0, true)) :=
  ⟨rfl, disabled_log_short_circuit cfgOff 50 st0 evC7 rfl⟩

/-- C10: on a non-empty journal (`expire_pos ≠ write_pos`), `replay` has the
unstated precondition `num_events := 0`: when events have already been
submitted and counted, the `assert(num_events == 0)` at line 379 fires and
the call is a fatal precondition violation. -/
theorem replay_requires_zero_events (s : MDLogState) (hasC : Bool)
    (hact : s.active = true) (hne : s.expire_pos ≠ s.write_pos) (hev : s.num_events ≠ 0) :
    MDLog.replay s hasC = none := by
  simp [MDLog.replay, hact, hne, hev]

/-- Witness for C10 at a concrete non-empty journal with one counted event. -/
theorem replay_requires_zero_events_w :
    stC10.active = true ∧ stC10.expire_pos ≠ stC10.write_pos ∧ stC10.num_events ≠ 0 ∧
      MDLog.replay stC10 true = none :=
  ⟨rfl, by decide, by decide, replay_requires_zero_events stC10 true rfl (by decide) (by decide)⟩

/-- C6 amended: `replay` sets `read_pos := expire_pos` in every case; it
invokes the callback immediately (iff one was supplied) and skips spawning
the worker exactly when `expire_pos = write_pos`, i.e. when `read_pos`
equals `write_pos` after the reset. -/
theorem replay_resets_read_pos (s : MDLogState) (hasC : Bool)
    (hact : s.active = true) (hnum : s.num_events = 0) :
    ∃ r, MDLog.replay s hasC = some r ∧
      r.1.read_pos = s.expire_pos ∧
      (r.2.2 = false ↔ s.expire_pos = s.write_pos) ∧
      (r.2.1 = true ↔ (hasC = true ∧ s.expire_pos = s.write_pos)) := by
  by_cases h : s.expire_pos = s.write_pos
  · refine ⟨({ s with read_pos := s.expire_pos }, hasC, false), ?_, rfl, ?_, ?_⟩
    · simp [MDLog.replay, hact, h]
    · simp [h]
    · simp [h]
  · refine ⟨({ s with read_pos := s.expire_pos }, false, true), ?_, rfl, ?_, ?_⟩
    · simp [MDLog.replay, hact, h, hnum]
    · simp [h]
    · simp [h]

/-- Witness for the amended C6 statement on a concrete empty journal whose
stale `read_pos` differs from `expire_pos`. -/
theorem replay_resets_read_pos_w :
    stC6w.active = true ∧ stC6w.num_events = 0 ∧
      (∃ r, MDLog.replay stC6w true = some r ∧
        r.1.read_pos = stC6w.expire_pos ∧
        (r.2.2 = false ↔ stC6w.expire_pos = stC6w.write_pos) ∧
        (r.2.1 = true ↔ (true = true ∧ stC6w.expire_pos = stC6w.write_pos))) :=
  ⟨rfl, rfl, replay_resets_read_pos stC6w true rfl rfl⟩

/-! Helper lemmas about the segment-table operations. -/

lemma keys_bumpLast : ∀ l : SegTable, keys (bumpLast l) = keys l
  | [] => rfl
  | [(_, _)] => rfl
  | a :: b :: rest => by
    show a.1 :: keys (bumpLast (b :: rest)) = a.1 :: keys (b :: rest)
    rw [keys_bumpLast (b :: rest)]

lemma length_bumpLast : ∀ l : SegTable, (bumpLast l).length = l.length
  | [] => rfl
  | [(_, _)] => rfl
  | a :: b :: rest => by
    show (bumpLast (b :: rest)).length + 1 = (b :: rest).length + 1
    rw [length_bumpLast (b :: rest)]

lemma bumpLast_ne_nil {l : SegTable} (h : l ≠ []) : bumpLast l ≠ [] := by
  have hl : 0 < (bumpLast l).length := by
    rw [length_bumpLast]
    exact List.length_pos.mpr h
  exact List.length_pos.mp hl

lemma sumCounts_bumpLast : ∀ l : SegTable, l ≠ [] → sumCounts (bumpLast l) = sumCounts l + 1
  | [], h => absurd rfl h
  | [(k, v)], _ => by
    show v + 1 + 0 = v + 0 + 1
    ring
  | a :: b :: rest, _ => by
    show a.2 + sumCounts (bumpLast (b :: rest)) = a.2 + sumCounts (b :: rest) + 1
    rw [sumCounts_bumpLast (b :: rest) (by simp)]
    ring

lemma sumCounts_append : ∀ l1 l2 : SegTable, sumCounts (l1 ++ l2) = sumCounts l1 + sumCounts l2
  | [], l2 => by
    show sumCounts l2 = 0 + sumCounts l2
    ring
  | a :: rest, l2 => by
    show a.2 + sumCounts (rest ++ l2) = a.2 + sumCounts rest + sumCounts l2
    rw [sumCounts_append rest l2]
    ring

lemma mem_keys_of_mem {p : Nat × Int} {l : SegTable} (h : p ∈ l) : p.1 ∈ keys l :=
  List.mem_map_of_mem Prod.fst h

lemma insertSeg_append (k0 : Nat) (v : Int) :
    ∀ l : SegTable, (∀ k ∈ keys l, k < k0) → insertSeg k0 v l = l ++ [(k0, v)]
  | [], _ => rfl
  | (k, w) :: rest, h => by
    have hk : k < k0 := h k (by simp [keys])
    simp only [insertSeg]
    rw [if_neg (by omega), if_neg (by omega)]
    rw [insertSeg_append k0 v rest (fun x hx => h x (List.mem_cons_of_mem k hx))]
    simp

lemma insertSeg_ne_nil (k0 : Nat) (v : Int) : ∀ l : SegTable, insertSeg k0 v l ≠ []
  | [] => by simp [insertSeg]
  | (k, w) :: rest => by
    simp only [insertSeg]
    split
    · simp
    · split <;> simp

lemma lastKey_cons (a : Nat × Int) : ∀ {l : SegTable}, l ≠ [] → lastKey (a :: l) = lastKey l
  | [], h => absurd rfl h
  | _ :: _, _ => rfl

lemma lastKey_mem : ∀ {l : SegTable} {m : Nat}, lastKey l = some m → m ∈ keys l
  | [], _, h => Option.noConfusion h
  | [(k, _)], m, h => by
    have hk : k = m := Option.some.inj h
    simp [keys, hk]
  | a :: b :: rest, m, h => by
    have hm : m ∈ keys (b :: rest) := lastKey_mem (l := b :: rest) h
    show m ∈ a.1 :: keys (b :: rest)
    exact List.mem_cons_of_mem _ hm

lemma lastKey_some : ∀ (l : SegTable), l ≠ [] → ∃ m, lastKey l = some m
  | [], h => absurd rfl h
  | [(k, _)], _ => ⟨k, rfl⟩
  | _ :: b :: rest, _ => lastKey_some (b :: rest) (by simp)

lemma lastKey_bumpLast : ∀ l : SegTable, lastKey (bumpLast l) = lastKey l
  | [] => rfl
  | [(_, _)] => rfl
  | a :: b :: rest => by
    have hne : bumpLast (b :: rest) ≠ [] := bumpLast_ne_nil (by simp)
    show lastKey (a :: bumpLast (b :: rest)) = lastKey (b :: rest)
    rw [lastKey_cons a hne, lastKey_bumpLast (b :: rest)]

lemma key_le_lastKey : ∀ {l : SegTable} {k m : Nat}, List.Chain' (· < ·) (keys l) →
    k ∈ keys l → lastKey l = some m → k ≤ m
  | [], k, m, _, hk, _ => absurd hk (by simp [keys])
  | [(a, _)], k, m, _, hk, hm => by
    have h1 : k = a := by simpa [keys] using hk
    have h2 : a = m := Option.some.inj hm
    omega
  | a :: b :: rest, k, m, hc, hk, hm => by
    have hc' : a.1 < b.1 ∧ List.Chain' (· < ·) (keys (b :: rest)) := by
      rw [show keys (a :: b :: rest) = a.1 :: b.1 :: keys rest from rfl,
        List.chain'_cons] at hc
      exact hc
    have hk2 : k = a.1 ∨ k ∈ keys (b :: rest) := List.mem_cons.mp hk
    rcases hk2 with h | h
    · have hbm : b.1 ≤ m := key_le_lastKey hc'.2 (List.mem_cons_self b.1 (keys rest)) hm
      omega
    · exact key_le_lastKey hc'.2 h hm

lemma eraseKey_cons_of_eq {a : Nat × Int} {l : SegTable} {off : Nat} (h : a.1 = off) :
    eraseKey off (a :: l) = eraseKey off l := by
  simp [eraseKey, List.filter_cons, h]

lemma eraseKey_cons_of_ne {a : Nat × Int} {l : SegTable} {off : Nat} (h : ¬ a.1 = off) :
    eraseKey off (a :: l) = a :: eraseKey off l := by
  simp [eraseKey, List.filter_cons, h]

lemma eraseKey_of_not_mem : ∀ {l : SegTable} {off : Nat}, off ∉ keys l → eraseKey off l = l
  | [], _, _ => rfl
  | a :: rest, off, h => by
    have h1 : ¬ a.1 = off := by
      intro he
      apply h
      rw [← he]
      exact List.mem_cons_self a.1 (keys rest)
    rw [eraseKey_cons_of_ne h1,
      eraseKey_of_not_mem (fun hm => h (List.mem_cons_of_mem a.1 hm))]

lemma mem_eraseKey {p : Nat × Int} {l : SegTable} {off : Nat} (h : p ∈ l) (hne : p.1 ≠ off) :
    p ∈ eraseKey off l := by
  unfold eraseKey
  exact List.mem_filter.mpr ⟨h, by simpa using hne⟩

lemma keys_eraseKey_nodup {l : SegTable} {off : Nat} (h : (keys l).Nodup) :
    (keys (eraseKey off l)).Nodup :=
  ((List.filter_sublist l).map Prod.fst).nodup h

lemma lastKey_eraseKey : ∀ {l : SegTable} {off m : Nat},
    lastKey l = some m → off ≠ m → lastKey (eraseKey off l) = some m
  | [], off, m, h, _ => Option.noConfusion h
  | [(k, v)], off, m, h, hne => by
    have hk : k = m := Option.some.inj h
    subst hk
    rw [eraseKey_of_not_mem (by simp [keys]; omega)]
    rfl
  | a :: b :: rest, off, m, h, hne => by
    have ih : lastKey (eraseKey off (b :: rest)) = some m :=
      lastKey_eraseKey (l := b :: rest) h hne
    have hh : eraseKey off (b :: rest) ≠ [] := by
      intro hnil
      rw [hnil] at ih
      exact Option.noConfusion ih
    by_cases ha : a.1 = off
    · rw [eraseKey_cons_of_eq ha]
      exact ih
    · rw [eraseKey_cons_of_ne ha, lastKey_cons a hh]
      exact ih

lemma sumCounts_eraseKey : ∀ {l : SegTable} {off : Nat} {ne : Int},
    (off, ne) ∈ l → (keys l).Nodup → sumCounts (eraseKey off l) = sumCounts l - ne
  | [], _, _, hm, _ => absurd hm (by simp)
  | a :: rest, off, ne, hm, hnd => by
    have hnd1 : a.1 ∉ keys rest ∧ (keys rest).Nodup := by
      rw [show keys (a :: rest) = a.1 :: keys rest from rfl, List.nodup_cons] at hnd
      exact hnd
    rcases List.mem_cons.mp hm with he | hr
    · have ha : a = (off, ne) := he.symm
      subst ha
      rw [@eraseKey_cons_of_eq (off, ne) rest off rfl, eraseKey_of_not_mem hnd1.1]
      show sumCounts rest = ne + sumCounts rest - ne
      ring
    · have hoff : off ∈ keys rest := mem_keys_of_mem hr
      have ha : ¬ a.1 = off := by
        intro he
        exact hnd1.1 (he ▸ hoff)
      rw [eraseKey_cons_of_ne ha]
      show a.2 + sumCounts (eraseKey off rest) = a.2 + sumCounts rest - ne
      rw [sumCounts_eraseKey hr hnd1.2]
      ring

/-- Through every step of the trim loop, the current (greatest-offset)
segment stays in the table and stays current: `_trimmed` refuses to erase
the segment that is `get_current_segment()` while the log is not capped,
and erasing other segments cannot change the last entry. -/
lemma trimGo_keeps_last (cfg : Config) (bar timeout : Nat → Bool) :
    ∀ (todo : SegTable) (i : Nat) (s : MDLogState) (left : Int) (m : Nat) (s' : MDLogState),
      s.capped = false → lastKey s.segments = some m →
      MDLog.trimGo cfg bar timeout todo i s left = some s' →
      lastKey s'.segments = some m := by
  intro todo
  induction todo with
  | nil =>
    intro i s left m s' hc hm ht
    exact (Option.some.inj ht) ▸ hm
  | cons hd rest ih =>
    obtain ⟨off, ne⟩ := hd
    intro i s left m s' hc hm ht
    rw [MDLog.trimGo] at ht
    split at ht
    · exact (Option.some.inj ht) ▸ hm
    split at ht
    · exact (Option.some.inj ht) ▸ hm
    split at ht
    · exact (Option.some.inj ht) ▸ hm
    revert ht
    split
    · intro ht
      exact Option.noConfusion ht
    case _ s1 heq =>
      intro ht
      have hstep : s1.capped = false ∧ lastKey s1.segments = some m := by
        by_cases hmem : off ∈ s.trimming
        · rw [if_pos hmem] at heq
          exact (Option.some.inj heq) ▸ ⟨hc, hm⟩
        · rw [if_neg hmem, MDLog.try_trim] at heq
          by_cases hbar : bar off = true
          · rw [if_pos hbar] at heq
            have h2 := Option.some.inj heq
            rw [← h2]
            exact ⟨hc, hm⟩
          · rw [if_neg hbar, MDLog.trimmedSeg] at heq
            by_cases hskip : s.capped = false ∧ lastKey s.segments = some off
            · rw [if_pos hskip] at heq
              exact (Option.some.inj heq) ▸ ⟨hc, hm⟩
            · rw [if_neg hskip] at heq
              by_cases hoff : off ∈ keys s.segments
              · rw [if_pos hoff] at heq
                have hne2 : off ≠ m := by
                  intro he
                  exact hskip ⟨hc, he ▸ hm⟩
                have h2 := Option.some.inj heq
                rw [← h2]
                exact ⟨hc, lastKey_eraseKey hm hne2⟩
              · rw [if_neg hoff] at heq
                exact Option.noConfusion heq
      exact ih (i + 1) s1 (left - ne) m s' hstep.1 hstep.2 ht

/-- C5: while `capped` is false, `trim()` never removes the current (newest)
segment, whatever the event and segment budgets: if the table's greatest
key is `m` before the call, the surviving table still has greatest key `m`,
so in particular the segment at `m` is still present. -/
theorem trim_keeps_current_segment (cfg : Config) (bar timeout : Nat → Bool)
    (s s' : MDLogState) (m : Nat)
    (hc : s.capped = false) (hm : lastKey s.segments = some m)
    (ht : MDLog.trim cfg bar timeout s = some s') :
    lastKey s'.segments = some m ∧ m ∈ keys s'.segments := by
  rw [MDLog.trim] at ht
  by_cases hempty : s.segments = []
  · rw [hempty] at hm
    exact Option.noConfusion hm
  · rw [if_neg hempty] at ht
    have hl := trimGo_keeps_last cfg bar timeout s.segments 0 s s.num_events m s' hc hm ht
    exact ⟨hl, lastKey_mem hl⟩

/-- Witness for C5: a single uncapped segment survives a `trim()` whose
segment budget is zero. -/
theorem trim_keeps_current_segment_w :
    stC5.capped = false ∧ lastKey stC5.segments = some 5 ∧
      MDLog.trim cfgC5 barNone tNone stC5 = some stC5 ∧
      (lastKey stC5.segments = some 5 ∧ 5 ∈ keys stC5.segments) :=
  ⟨rfl, rfl, by decide,
    trim_keeps_current_segment cfgC5 barNone tNone stC5 stC5 5 rfl rfl (by decide)⟩

lemma chain_append_lt : ∀ (ks : List Nat) (w : Nat), List.Chain' (· < ·) ks →
    (∀ k ∈ ks, k < w) → List.Chain' (· < ·) (ks ++ [w])
  | [], w, _, _ => List.chain'_singleton w
  | [a], w, _, h => by
    have ha : a < w := h a (by simp)
    exact List.chain'_cons.mpr ⟨ha, List.chain'_singleton w⟩
  | a :: b :: t, w, hc, h => by
    have hc' := List.chain'_cons.mp hc
    have ih := chain_append_lt (b :: t) w hc'.2 (fun k hk => h k (List.mem_cons_of_mem a hk))
    exact List.chain'_cons.mpr ⟨hc'.1, ih⟩

/-- One unfolding step of `submitCore` once the inner submit is known to
succeed. -/
lemma submitCore_succ_of_inner {cfg : Config} {cpSize fuel : Nat} {s s1 : MDLogState}
    {e : LogEvent} {hasC : Bool} (h : MDLog.submitInner s e hasC = some s1) :
    MDLog.submitCore cfg cpSize (fuel + 1) s e hasC =
      if MDLog.segTrigger cfg s1 then
        if s1.writing_subtree_map then none
        else MDLog.submitCore cfg cpSize fuel
          { s1 with segments := insertSeg s1.write_pos 0 s1.segments, writing_subtree_map := true }
          ⟨EVENT_SUBTREEMAP, cpSize⟩ true
      else some s1 := by
  rw [MDLog.submitCore, h]

/-- `submitCore` preserves the sum invariant: an event is counted both
globally and on the current segment, a triggered segment starts at count
zero, and its checkpoint is again counted on both sides. -/
lemma submitCore_sum (cfg : Config) (cpSize : Nat) :
    ∀ (fuel : Nat) (s : MDLogState) (e : LogEvent) (hasC : Bool),
      List.Chain' (· < ·) (keys s.segments) →
      s.num_events = sumCounts s.segments →
      SumInvO (MDLog.submitCore cfg cpSize fuel s e hasC) := by
  intro fuel
  induction fuel with
  | zero =>
    intro s e hasC _ _
    exact trivial
  | succ fuel ih =>
    intro s e hasC hwf hinv
    by_cases hseg : s.segments = []
    · have hInner : MDLog.submitInner s e hasC = none := by
        rw [MDLog.submitInner, if_pos hseg]
      rw [MDLog.submitCore, hInner]
      exact trivial
    · by_cases hcap : s.capped = true
      · have hInner : MDLog.submitInner s e hasC = none := by
          rw [MDLog.submitInner, if_neg hseg, if_pos hcap]
        rw [MDLog.submitCore, hInner]
        exact trivial
      · obtain ⟨s1, hInner, hs1seg, hs1num, hs1wpos⟩ :
            ∃ s1, MDLog.submitInner s e hasC = some s1 ∧
              s1.segments = bumpLast s.segments ∧
              s1.num_events = s.num_events + 1 ∧
              s1.write_pos = s.write_pos + e.esize := by
          refine ⟨{ s with
              segments := bumpLast s.segments,
              num_events := s.num_events + 1,
              write_pos := s.write_pos + e.esize,
              unflushed := if hasC then 0 else s.unflushed + 1 }, ?_, rfl, rfl, rfl⟩
          rw [MDLog.submitInner, if_neg hseg, if_neg hcap]
        rw [submitCore_succ_of_inner hInner]
        have hwf1 : List.Chain' (· < ·) (keys s1.segments) := by
          rw [hs1seg, keys_bumpLast]
          exact hwf
        have hinv1 : s1.num_events = sumCounts s1.segments := by
          rw [hs1seg, hs1num, sumCounts_bumpLast s.segments hseg, hinv]
        by_cases htr : MDLog.segTrigger cfg s1
        · rw [if_pos htr]
          by_cases hwsm : s1.writing_subtree_map = true
          · rw [if_pos hwsm]
            exact trivial
          · rw [if_neg hwsm]
            have hs1ne : s1.segments ≠ [] := htr.1
            obtain ⟨m, hm⟩ := lastKey_some s1.segments hs1ne
            have hlt : m < s1.write_pos := by
              have h4 := htr.2.2.2
              have hmoff : lastSegOffset s1 = m := by
                rw [lastSegOffset, hm]
                rfl
              omega
            have hkeys : ∀ k ∈ keys s1.segments, k < s1.write_pos :=
              fun k hk => lt_of_le_of_lt (key_le_lastKey hwf1 hk hm) hlt
            have hins : insertSeg s1.write_pos 0 s1.segments
                = s1.segments ++ [(s1.write_pos, 0)] :=
              insertSeg_append _ _ _ hkeys
            apply ih
            · show List.Chain' (· < ·) (keys (insertSeg s1.write_pos 0 s1.segments))
              rw [hins]
              have hkapp : keys (s1.segments ++ [(s1.write_pos, 0)])
                  = keys s1.segments ++ [s1.write_pos] := by
                simp [keys]
              rw [hkapp]
              exact chain_append_lt _ _ hwf1 hkeys
            · show s1.num_events = sumCounts (insertSeg s1.write_pos 0 s1.segments)
              rw [hins, sumCounts_append, hinv1]
              show sumCounts s1.segments = sumCounts s1.segments + (0 + 0)
              ring
        · rw [if_neg htr]
          exact hinv1

/-- Every step of the trim loop preserves the sum invariant: `_trimmed`
subtracts exactly the erased segment's count from the global counter. -/
lemma trimGo_sum (cfg : Config) (bar timeout : Nat → Bool) :
    ∀ (todo : SegTable) (i : Nat) (s : MDLogState) (left : Int),
      s.num_events = sumCounts s.segments →
      (keys s.segments).Nodup →
      (∀ p ∈ todo, p ∈ s.segments) →
      (keys todo).Nodup →
      SumInvO (MDLog.trimGo cfg bar timeout todo i s left) := by
  intro todo
  induction todo with
  | nil =>
    intro i s left hinv _ _ _
    exact hinv
  | cons hd rest ih =>
    obtain ⟨off, ne⟩ := hd
    intro i s left hinv hnd hmem hndt
    have hndt' : off ∉ keys rest ∧ (keys rest).Nodup := by
      rw [show keys ((off, ne) :: rest) = off :: keys rest from rfl, List.nodup_cons] at hndt
      exact hndt
    rw [MDLog.trimGo]
    split
    · exact hinv
    split
    · exact hinv
    split
    · exact hinv
    split
    · exact trivial
    case _ s1 heq =>
      have hstep : s1.num_events = sumCounts s1.segments ∧ (keys s1.segments).Nodup ∧
          (∀ p ∈ rest, p ∈ s1.segments) := by
        by_cases hmemT : off ∈ s.trimming
        · rw [if_pos hmemT] at heq
          rw [← Option.some.inj heq]
          exact ⟨hinv, hnd, fun p hp => hmem p (List.mem_cons_of_mem _ hp)⟩
        · rw [if_neg hmemT, MDLog.try_trim] at heq
          by_cases hbar : bar off = true
          · rw [if_pos hbar] at heq
            rw [← Option.some.inj heq]
            exact ⟨hinv, hnd, fun p hp => hmem p (List.mem_cons_of_mem _ hp)⟩
          · rw [if_neg hbar, MDLog.trimmedSeg] at heq
            by_cases hskip : s.capped = false ∧ lastKey s.segments = some off
            · rw [if_pos hskip] at heq
              rw [← Option.some.inj heq]
              exact ⟨hinv, hnd, fun p hp => hmem p (List.mem_cons_of_mem _ hp)⟩
            · rw [if_neg hskip] at heq
              by_cases hoff : off ∈ keys s.segments
              · rw [if_pos hoff] at heq
                rw [← Option.some.inj heq]
                have hpmem : (off, ne) ∈ s.segments := hmem (off, ne) (List.mem_cons_self _ _)
                refine ⟨?_, keys_eraseKey_nodup hnd, ?_⟩
                · show s.num_events - ne = sumCounts (eraseKey off s.segments)
                  rw [sumCounts_eraseKey hpmem hnd, hinv]
                · intro p hp
                  exact mem_eraseKey (hmem p (List.mem_cons_of_mem _ hp))
                    (fun hpe => hndt'.1 (hpe ▸ mem_keys_of_mem hp))
              · rw [if_neg hoff] at heq
                exact Option.noConfusion heq
      exact ih (i + 1) s1 (left - ne) hstep.1 hstep.2.1 hstep.2.2 hndt'.2

/-- C3 amended: on a well-formed segment table, the equation
`num_events == Σ segments[s].num_events` is preserved by `submit_entry` and
by `trim` (hence holds after those API calls whenever it held before); it is
not restored by replay, which bumps only the global counter. -/
theorem sum_invariant_submit_trim (cfg : Config) (cpSize : Nat) (bar timeout : Nat → Bool)
    (s : MDLogState) (e : LogEvent) (hasC : Bool)
    (hwf : WF s) (hinv : s.num_events = sumCounts s.segments) :
    SumInvO ((MDLog.submit_entry cfg cpSize s e hasC).map Prod.fst) ∧
      SumInvO (MDLog.trim cfg bar timeout s) := by
  constructor
  · rw [MDLog.submit_entry]
    by_cases hlog : cfg.mds_log = false
    · rw [if_pos hlog]
      exact hinv
    · rw [if_neg hlog]
      have h := submitCore_sum cfg cpSize 2 s e hasC hwf hinv
      rcases hsc : MDLog.submitCore cfg cpSize 2 s e hasC with _ | s1
      · exact trivial
      · rw [hsc] at h
        exact h
  · rw [MDLog.trim]
    by_cases hempty : s.segments = []
    · rw [if_pos hempty]
      exact hinv
    · rw [if_neg hempty]
      have hnd : (keys s.segments).Nodup := by
        have hp : List.Pairwise (· < ·) (keys s.segments) := List.chain'_iff_pairwise.mp hwf
        exact hp.imp (fun h => Nat.ne_of_lt h)
      exact trimGo_sum cfg bar timeout s.segments 0 s s.num_events hinv hnd
        (fun p hp => hp) hnd

/-- Witness for the amended C3 statement at a concrete sorted table. -/
theorem sum_invariant_submit_trim_w :
    WF stC1 ∧ stC1.num_events = sumCounts stC1.segments ∧
      (SumInvO ((MDLog.submit_entry cfgC1 50 stC1 evC7 false).map Prod.fst) ∧
        SumInvO (MDLog.trim cfgC1 barNone tNone stC1)) :=
  ⟨by norm_num [stC1, WF, keys, List.chain'_cons, List.chain'_singleton], by decide,
    sum_invariant_submit_trim cfgC1 50 barNone tNone stC1 evC7 false
      (by norm_num [stC1, WF, keys, List.chain'_cons, List.chain'_singleton]) (by decide)⟩

/-- C4: after a submit on a well-formed non-empty, uncapped, enabled log, a
new segment is started if and only if both (i) the post-append `write_pos`
and the last segment offset fall in different stripes and (ii) the
post-append `write_pos` is more than half a period past the last segment
offset — and the trigger is suppressed whenever `writing_subtree_map` is
already true.  Starting a segment is observable as the table growing by
exactly one entry. -/
theorem submit_new_segment_iff (cfg : Config) (cpSize : Nat) (s : MDLogState) (e : LogEvent)
    (hasC : Bool) (hwf : WF s) (hne : s.segments ≠ []) (hcap : s.capped = false)
    (hlog : cfg.mds_log = true) :
    ∃ s1, MDLog.submit_entry cfg cpSize s e hasC = some (s1, false) ∧
      (s1.segments.length = s.segments.length + 1 ↔
        (s.writing_subtree_map = false ∧
          (s.write_pos + e.esize) / cfg.period ≠ lastSegOffset s / cfg.period ∧
          cfg.period / 2 < (s.write_pos + e.esize) - lastSegOffset s)) := by
  have hcap' : ¬ s.capped = true := by
    rw [hcap]
    simp
  have hlog' : ¬ cfg.mds_log = false := by
    rw [hlog]
    simp
  obtain ⟨sA, hInner, hAseg, hAwpos, hAwsm, hAcap⟩ :
      ∃ sA, MDLog.submitInner s e hasC = some sA ∧
        sA.segments = bumpLast s.segments ∧
        sA.write_pos = s.write_pos + e.esize ∧
        sA.writing_subtree_map = s.writing_subtree_map ∧
        sA.capped = s.capped := by
    refine ⟨{ s with
        segments := bumpLast s.segments,
        num_events := s.num_events + 1,
        write_pos := s.write_pos + e.esize,
        unflushed := if hasC then 0 else s.unflushed + 1 }, ?_, rfl, rfl, rfl, rfl⟩
    rw [MDLog.submitInner, if_neg hne, if_neg hcap']
  have hAne : sA.segments ≠ [] := by
    rw [hAseg]
    exact bumpLast_ne_nil hne
  have hAlast : lastSegOffset sA = lastSegOffset s := by
    rw [lastSegOffset, lastSegOffset, hAseg, lastKey_bumpLast]
  have htrIff : MDLog.segTrigger cfg sA ↔
      (s.writing_subtree_map = false ∧
        (s.write_pos + e.esize) / cfg.period ≠ lastSegOffset s / cfg.period ∧
        cfg.period / 2 < (s.write_pos + e.esize) - lastSegOffset s) := by
    unfold MDLog.segTrigger
    constructor
    · rintro ⟨h1, h2, h3, h4⟩
      rw [hAwsm] at h2
      rw [hAwpos, hAlast] at h3
      rw [hAwpos, hAlast] at h4
      exact ⟨h2, h3, h4⟩
    · rintro ⟨h2, h3, h4⟩
      refine ⟨hAne, ?_, ?_, ?_⟩
      · rw [hAwsm]
        exact h2
      · rw [hAwpos, hAlast]
        exact h3
      · rw [hAwpos, hAlast]
        exact h4
  by_cases htr : MDLog.segTrigger cfg sA
  · have hwsmA : ¬ sA.writing_subtree_map = true := by
      rw [htr.2.1]
      simp
    have hwfA : List.Chain' (· < ·) (keys sA.segments) := by
      rw [hAseg, keys_bumpLast]
      exact hwf
    obtain ⟨m, hm⟩ := lastKey_some sA.segments hAne
    have hmlt : m < sA.write_pos := by
      have h4 := htr.2.2.2
      have hmoff : lastSegOffset sA = m := by
        rw [lastSegOffset, hm]
        rfl
      omega
    have hkeys : ∀ k ∈ keys sA.segments, k < sA.write_pos :=
      fun k hk => lt_of_le_of_lt (key_le_lastKey hwfA hk hm) hmlt
    have hins : insertSeg sA.write_pos 0 sA.segments = sA.segments ++ [(sA.write_pos, 0)] :=
      insertSeg_append _ _ _ hkeys
    obtain ⟨sB, hInner2, hBsegL, hBwsm⟩ :
        ∃ sB, MDLog.submitInner
            { sA with
              segments := insertSeg sA.write_pos 0 sA.segments,
              writing_subtree_map := true } ⟨EVENT_SUBTREEMAP, cpSize⟩ true = some sB ∧
          sB.segments.length = s.segments.length + 1 ∧
          sB.writing_subtree_map = true := by
      refine ⟨{ sA with
          segments := bumpLast (insertSeg sA.write_pos 0 sA.segments),
          writing_subtree_map := true,
          num_events := sA.num_events + 1,
          write_pos := sA.write_pos + cpSize,
          unflushed := 0 }, ?_, ?_, rfl⟩
      · rw [MDLog.submitInner,
          if_neg (show ¬ insertSeg sA.write_pos 0 sA.segments = [] from insertSeg_ne_nil _ _ _),
          if_neg (show ¬ sA.capped = true by rw [hAcap]; exact hcap')]
        rfl
      · show (bumpLast (insertSeg sA.write_pos 0 sA.segments)).length = s.segments.length + 1
        rw [length_bumpLast, hins, List.length_append, hAseg, length_bumpLast]
        rfl
    have htr2 : ¬ MDLog.segTrigger cfg sB := fun h =>
      absurd h.2.1 (by rw [hBwsm]; simp)
    have hcore : MDLog.submitCore cfg cpSize 2 s e hasC = some sB := by
      show MDLog.submitCore cfg cpSize (1 + 1) s e hasC = some sB
      rw [submitCore_succ_of_inner hInner, if_pos htr, if_neg hwsmA]
      show MDLog.submitCore cfg cpSize (0 + 1)
        { sA with segments := insertSeg sA.write_pos 0 sA.segments, writing_subtree_map := true }
        ⟨EVENT_SUBTREEMAP, cpSize⟩ true = some sB
      rw [submitCore_succ_of_inner hInner2, if_neg htr2]
    refine ⟨sB, ?_, iff_of_true hBsegL (htrIff.mp htr)⟩
    rw [MDLog.submit_entry, if_neg hlog', hcore]
    rfl
  · have hcore : MDLog.submitCore cfg cpSize 2 s e hasC = some sA := by
      show MDLog.submitCore cfg cpSize (1 + 1) s e hasC = some sA
      rw [submitCore_succ_of_inner hInner, if_neg htr]
    refine ⟨sA, ?_, ?_⟩
    · rw [MDLog.submit_entry, if_neg hlog', hcore]
      rfl
    · rw [hAseg, length_bumpLast]
      constructor
      · intro h
        exact absurd h (by omega)
      · intro h
        exact absurd (htrIff.mpr h) htr

/-- Witness for C4: a submit that carries `write_pos` from 1500 to 1600
crosses the 1024-byte stripe boundary more than half a period past the
segment at offset 0, so a new segment is started. -/
theorem submit_new_segment_iff_w :
    WF stC4 ∧ stC4.segments ≠ [] ∧ stC4.capped = false ∧ cfgC4.mds_log = true ∧
      (∃ s1, MDLog.submit_entry cfgC4 40 stC4 evC4 false = some (s1, false) ∧
        (s1.segments.length = stC4.segments.length + 1 ↔
          (stC4.writing_subtree_map = false ∧
            (stC4.write_pos + evC4.esize) / cfgC4.period ≠ lastSegOffset stC4 / cfgC4.period ∧
            cfgC4.period / 2 < (stC4.write_pos + evC4.esize) - lastSegOffset stC4))) :=
  ⟨by simp [stC4, WF, keys], by decide, rfl, rfl,
    submit_new_segment_iff cfgC4 40 stC4 evC4 false
      (by simp [stC4, WF, keys]) (by decide) rfl rfl⟩

/-- C2 amended: replaying `[A, B, SUBTREEMAP@pos_C, D]` from offset 0 on a
fresh log reads A and B without applying them (no segment yet), creates a
segment at `pos_C`, applies the checkpoint event itself and D — so
`num_events` ends at 2, not 1 — and on completion rewinds both `read_pos`
and `expire_pos` to `pos_C`. -/
theorem replay_midlog_checkpoint (s : MDLogState) (pa pb pc pd ta tb td : Nat)
    (hseg : s.segments = []) (hnum : s.num_events = 0) (hexp : s.expire_pos = 0)
    (hta : ta ≠ EVENT_SUBTREEMAP) (htb : tb ≠ EVENT_SUBTREEMAP) (htd : td ≠ EVENT_SUBTREEMAP)
    (hpc : pc ≠ 0) :
    MDLog.replay_thread s [(pa, ta), (pb, tb), (pc, EVENT_SUBTREEMAP), (pd, td)] =
      { s with segments := [(pc, 0)], num_events := 2, read_pos := pc, expire_pos := pc } := by
  simp [MDLog.replay_thread, MDLog.replayStep, hseg, hnum, hexp, hta, htb, htd, hpc, insertSeg]

/-- Witness for the amended C2 statement at the concrete journal content. -/
theorem replay_midlog_checkpoint_w :
    (stRe.segments = [] ∧ stRe.num_events = 0 ∧ stRe.expire_pos = 0 ∧
      (2 : Nat) ≠ EVENT_SUBTREEMAP ∧ (3 : Nat) ≠ EVENT_SUBTREEMAP ∧
      (4 : Nat) ≠ EVENT_SUBTREEMAP ∧ (200 : Nat) ≠ 0) ∧
    MDLog.replay_thread stRe [(0, 2), (100, 3), (200, EVENT_SUBTREEMAP), (300, 4)] =
      { stRe with segments := [(200, 0)], num_events := 2, read_pos := 200, expire_pos := 200 } :=
  ⟨⟨rfl, rfl, rfl, by decide, by decide, by decide, by decide⟩,
    replay_midlog_checkpoint stRe 0 100 200 300 2 3 4 rfl rfl rfl
      (by decide) (by decide) (by decide) (by decide)⟩
